import Mathlib

/-!
Verification development for the document-digitization core of
kj-pdf-digitizer (`src/main.py`).

Strings are modelled as `List Char`.  A page of the PDF is modelled by the
optional text that `page.extract_text()` returns (`none` = no extractable
text).  Each Python regex of the source is modelled by a hand-rolled
matcher over `List Char`; every place where a greedy/lazy quantifier of the
original pattern is replaced by a deterministic maximal run is justified in
a comment (the character class that follows the quantifier is disjoint from
the class being repeated, so the backtracking engine can never give
characters back successfully).

Python's `\s` is modelled by the ASCII whitespace actually present in the
documents (space, tab, CR, LF), `\d` by the ASCII digits, and
`str.splitlines` by splitting at `'\n'`.
-/

set_option maxHeartbeats 1000000

namespace KjDigitizer

/-- Model of Python `\s` (restricted to ASCII whitespace): space, tab,
carriage return, newline. -/
def isWs (c : Char) : Bool :=
  decide (c.toNat = 32) || decide (c.toNat = 9) || decide (c.toNat = 13) ||
    decide (c.toNat = 10)

/-- Model of Python `\d` (restricted to ASCII digits `0`-`9`). -/
def isDig (c : Char) : Bool :=
  decide (48 ≤ c.toNat) && decide (c.toNat ≤ 57)

/-- Unicode lowercasing for the alphabets that occur in the source's
patterns: Latin `A`-`Z`, Cyrillic `А`-`Я` and `Ё`, and `Ø`.  Used to model
`re.IGNORECASE`. -/
def lowerChar (c : Char) : Char :=
  if 65 ≤ c.toNat ∧ c.toNat ≤ 90 then Char.ofNat (c.toNat + 32)
  else if 1040 ≤ c.toNat ∧ c.toNat ≤ 1071 then Char.ofNat (c.toNat + 32)
  else if c.toNat = 1025 then Char.ofNat 1105
  else if c.toNat = 216 then Char.ofNat 248
  else c

/-- The character class `[Ø∅]` of `LINE_RE`/`SIZE_RE` under `IGNORECASE`:
`Ø`, `ø` or `∅`. -/
def isOslash (c : Char) : Bool :=
  decide (lowerChar c = 'ø') || decide (c = '∅')

/-- The character class `[xх]` (Latin x, Cyrillic х) under `IGNORECASE`. -/
def isXchar (c : Char) : Bool :=
  decide (lowerChar c = 'x') || decide (lowerChar c = 'х')

/-- Value of a run of ASCII digits, as Python `int` computes it. -/
def digitsVal (l : List Char) : Nat :=
  l.foldl (fun n c => 10 * n + (c.toNat - 48)) 0

/-- Match a literal pattern case-insensitively at the head of the input,
returning the original (not case-folded) matched characters and the rest. -/
def dropLitCI : List Char → List Char → Option (List Char × List Char)
  | [], l => some ([], l)
  | _ :: _, [] => none
  | p :: ps, c :: cs =>
    if lowerChar c = lowerChar p then
      match dropLitCI ps cs with
      | some (m, r) => some (c :: m, r)
      | none => none
    else none

/-- Match a literal pattern case-sensitively at the head of the input,
returning the rest (the matched text equals the pattern). -/
def dropLit : List Char → List Char → Option (List Char)
  | [], l => some l
  | _ :: _, [] => none
  | p :: ps, c :: cs => if c = p then dropLit ps cs else none

/-- Maximal run of characters satisfying `p` (models a greedy `p*` whose
follower is disjoint from `p`). -/
def spanRun (p : Char → Bool) (l : List Char) : List Char × List Char :=
  (l.takeWhile p, l.dropWhile p)

/-- Non-empty maximal run (models a greedy `p+` whose follower is disjoint
from `p`). -/
def spanRun1 (p : Char → Bool) (l : List Char) : Option (List Char × List Char) :=
  if l.takeWhile p = [] then none else some (l.takeWhile p, l.dropWhile p)

/-- First-match-wins alternation of two matchers (regex `|`). -/
def orO : Option α → Option α → Option α
  | some a, _ => some a
  | none, b => b

/-- Model of `re.search`: try the matcher at every start position from left
to right (including the final empty suffix) and return the first success. -/
def searchWith (m : List Char → Option α) : List Char → Option α
  | [] => m []
  | c :: t =>
    match m (c :: t) with
    | some a => some a
    | none => searchWith m t

/-- Model of Python `\s+` followed by `(\d+)`: whitespace run, digit run,
returning the numeric value and the rest.  Both runs are maximal: after the
whitespace run the pattern needs a digit and a shorter whitespace run would
leave a whitespace character where the digit is required, and symmetrically
for the digit run. -/
def wsNum (l : List Char) : Option (Nat × List Char) :=
  match spanRun1 isWs l with
  | none => none
  | some (_, r) =>
    match spanRun1 isDig r with
    | none => none
    | some (d, r2) => some (digitsVal d, r2)

/-- One alternative `<pat>\d+` of the structural-element code group, under
`IGNORECASE`; returns the captured original text and the rest. -/
def matchAltCI (pat : String) (l : List Char) : Option (List Char × List Char) :=
  match dropLitCI pat.toList l with
  | none => none
  | some (m, r) =>
    match spanRun1 isDig r with
    | none => none
    | some (d, r2) => some (m ++ d, r2)

/-- The group `(Км-\d+|СЖм-\d+|СТм-\d+|Бм-\d+|Пм-\d+)` under `IGNORECASE`.
The five alternatives can never match at the same position (their literal
prefixes differ within the first two characters), so committed first-match
alternation is faithful. -/
def matchCodeCI (l : List Char) : Option (List Char × List Char) :=
  orO (matchAltCI "Км-" l) (orO (matchAltCI "СЖм-" l) (orO (matchAltCI "СТм-" l)
    (orO (matchAltCI "Бм-" l) (matchAltCI "Пм-" l))))

/-- `SPEC_ELEMENTS_RE` tried at one position:
`Спецификация\s+элементов\s+(Км-\d+|СЖм-\d+|СТм-\d+|Бм-\d+|Пм-\d+)`,
`IGNORECASE`; returns the captured code (group 1). -/
def specElementsAt (l : List Char) : Option String :=
  match dropLitCI "Спецификация".toList l with
  | none => none
  | some (_, r1) =>
    match spanRun1 isWs r1 with
    | none => none
    | some (_, r2) =>
      match dropLitCI "элементов".toList r2 with
      | none => none
      | some (_, r3) =>
        match spanRun1 isWs r3 with
        | none => none
        | some (_, r4) =>
          match matchCodeCI r4 with
          | none => none
          | some (code, _) => some (String.mk code)

/-- One keyword alternative of `SPEC_HEADER_RE`'s first group. -/
def kwAlt (pat : String) (l : List Char) : Option (List Char) :=
  (dropLitCI pat.toList l).map (fun x => x.2)

/-- The `Стены\s+монолитные` alternative of `SPEC_HEADER_RE`'s first group. -/
def stenyAlt (l : List Char) : Option (List Char) :=
  match dropLitCI "Стены".toList l with
  | none => none
  | some (_, r) =>
    match spanRun1 isWs r with
    | none => none
    | some (_, r2) => (dropLitCI "монолитные".toList r2).map (fun x => x.2)

/-- The group `(Колонна|Балка|Плита|Стены\s+монолитные|Стена)` in source
order.  No two alternatives can match at the same position (`Стены…` and
`Стена` differ at their fifth character), so committed first-match
alternation is faithful. -/
def headerKw (l : List Char) : Option (List Char) :=
  orO (kwAlt "Колонна" l) (orO (kwAlt "Балка" l) (orO (kwAlt "Плита" l)
    (orO (stenyAlt l) (kwAlt "Стена" l))))

/-- `SPEC_HEADER_RE` tried at one position:
`(Колонна|Балка|Плита|Стены\s+монолитные|Стена)\s+(Км-\d+|…)`,
`IGNORECASE`; returns the captured code (group 2, the one `digitize` uses). -/
def specHeaderAt (l : List Char) : Option String :=
  match headerKw l with
  | none => none
  | some r =>
    match spanRun1 isWs r with
    | none => none
    | some (_, r2) =>
      match matchCodeCI r2 with
      | none => none
      | some (code, _) => some (String.mk code)

/-- Common core of `EMBEDDED_HEADER_RE` (`Изделие\s+закладное\s+(ЗД-\d+)`)
and of `EMBEDDED_LINE_RE` which extends it by `\s+(\d+)`; `IGNORECASE`.
Returns the rest after the `ЗД-\d+` group. -/
def embeddedHeaderCore (l : List Char) : Option (List Char) :=
  match dropLitCI "Изделие".toList l with
  | none => none
  | some (_, r1) =>
    match spanRun1 isWs r1 with
    | none => none
    | some (_, r2) =>
      match dropLitCI "закладное".toList r2 with
      | none => none
      | some (_, r3) =>
        match spanRun1 isWs r3 with
        | none => none
        | some (_, r4) =>
          match dropLitCI "ЗД-".toList r4 with
          | none => none
          | some (_, r5) =>
            match spanRun1 isDig r5 with
            | none => none
            | some (_, r6) => some r6

/-- `EMBEDDED_LINE_RE` tried at one position; returns the quantity
(group 2, the one `digitize` uses). -/
def embeddedLineAt (l : List Char) : Option Nat :=
  match embeddedHeaderCore l with
  | none => none
  | some r => (wsNum r).map (fun x => x.1)

/-- `SPEC_ELEMENTS_RE.search`. -/
def specElementsSearch (l : List Char) : Option String := searchWith specElementsAt l

/-- `SPEC_HEADER_RE.search`. -/
def specHeaderSearch (l : List Char) : Option String := searchWith specHeaderAt l

/-- `EMBEDDED_LINE_RE.search`, projected to group 2. -/
def embeddedLineSearch (l : List Char) : Option Nat := searchWith embeddedLineAt l

/-- Truthiness of `EMBEDDED_HEADER_RE.search`. -/
def embeddedHeaderSearch (l : List Char) : Bool := (searchWith embeddedHeaderCore l).isSome

/-- The optional `[Ø∅]?` at the start of the size token.  Greedy
consume-if-present is faithful: when the character is present but the
continuation fails, the engine retries without it, and then the following
`\s*\d+` fails immediately on the `Ø`-class character. -/
def oslashOpt (l : List Char) : List Char × List Char :=
  match l with
  | [] => ([], [])
  | c :: t => if isOslash c then ([c], t) else ([], l)

/-- The size token `[Ø∅]?\s*\d+\s*[xх]\s*\d+` shared verbatim between
`LINE_RE` (inside the `fullname` group) and `SIZE_RE` (whose two groups
are the digit runs); `IGNORECASE`.  Returns
`(diameter, length, matched text, rest)`.  All runs are maximal: each is
followed in the pattern by a character class disjoint from the run's class
(`\s*` by a digit or `[xх]`, `\d+` by `\s`/`[xх]`/`-`/end), so greedy
matching never backtracks into them successfully. -/
def sizeCore (l : List Char) : Option (Nat × Nat × List Char × List Char) :=
  let p1 := oslashOpt l
  let p2 := spanRun isWs p1.2
  match spanRun1 isDig p2.2 with
  | none => none
  | some (d1, l3) =>
    let p4 := spanRun isWs l3
    match p4.2 with
    | [] => none
    | x :: l5 =>
      if isXchar x then
        let p6 := spanRun isWs l5
        match spanRun1 isDig p6.2 with
        | none => none
        | some (d2, l7) =>
          some (digitsVal d1, digitsVal d2,
            p1.1 ++ p2.1 ++ d1 ++ p4.1 ++ x :: (p6.1 ++ d2), l7)
      else none

/-- `SIZE_RE.search`, projected to its two captured groups
(`diameter`, `length`). -/
def sizeSearch (l : List Char) : Option (Nat × Nat) :=
  searchWith (fun s => (sizeCore s).map (fun t => (t.1, t.2.1))) l

/-- The optional grade suffix `(?:-\s*A\d{3}С?)?` of `LINE_RE`'s `fullname`
group (`A` Latin, `С` Cyrillic, `IGNORECASE`).  Returns the consumed
characters (possibly `[]`) and the rest.  When the suffix is present but
unparsable the option matches empty, which is what the `([], l)` fall-backs
model; consume-if-present for the trailing `С?` is faithful because the
pattern continues with `\s+` which fails on `С` anyway. -/
def gradeOpt (l : List Char) : List Char × List Char :=
  match l with
  | [] => ([], [])
  | c :: t =>
    if c = '-' then
      match t.dropWhile isWs with
      | a :: c1 :: c2 :: c3 :: t3 =>
        if lowerChar a = 'a' && isDig c1 && isDig c2 && isDig c3 then
          match t3 with
          | s :: t4 =>
            if lowerChar s = 'с' then
              (c :: (t.takeWhile isWs ++ a :: c1 :: c2 :: c3 :: [s]), t4)
            else (c :: (t.takeWhile isWs ++ [a, c1, c2, c3]), t3)
          | [] => (c :: (t.takeWhile isWs ++ [a, c1, c2, c3]), [])
        else ([], c :: t)
      | _ => ([], c :: t)
    else ([], c :: t)

/-- The lazy `.*?` of `LINE_RE` followed by the size token, the optional
grade suffix and the trailing `\s+(\d+)` quantity.  Lazy matching means the
earliest position at which the remainder matches wins, which is exactly
this left-to-right scan.  `.` does not match a newline, so the scan stops
at `'\n'`.  When the size token matches but the trailing quantity does not,
the engine moves on one character: the only other backtracking candidate
(dropping the parsed grade suffix) would place `\s+` on the `'-'` of the
suffix and fail.  Returns (text consumed from here to the end of
`fullname`, quantity). -/
def scanTok : List Char → Option (List Char × Nat)
  | [] => none
  | c :: t =>
    match sizeCore (c :: t) with
    | some (_, _, m, r) =>
      match wsNum (gradeOpt r).2 with
      | some (q, _) => some (m ++ (gradeOpt r).1, q)
      | none =>
        if c = '\n' then none
        else (scanTok t).map (fun mq => (c :: mq.1, mq.2))
    | none =>
      if c = '\n' then none
      else (scanTok t).map (fun mq => (c :: mq.1, mq.2))

/-- The part of `LINE_RE` from the mandatory `Пруток` keyword on:
`Пруток\s+.*?<size token><grade?>\s+(\d+)`.  The `\s+` after the keyword is
taken maximally; this is faithful because the following `.*?` accepts any
character the run could give back, and the captured groups do not depend on
where `\s+` ends and `.*?` begins. -/
def matchPrutok (l : List Char) : Option (List Char × Nat) :=
  match dropLitCI "Пруток".toList l with
  | none => none
  | some (kw, r) =>
    match spanRun1 isWs r with
    | none => none
    | some (ws, r2) =>
      match scanTok r2 with
      | none => none
      | some (m, q) => some (kw ++ ws ++ m, q)

/-- The optional standards prefix `(?:ГОСТ\s*\d+[-–]\d+\s*)?` of `LINE_RE`.
On success returns the consumed characters and the rest.  All runs are
maximal (each is followed by a disjoint class: `\s*` by `\d`/`П`, `\d+` by
`[-–]`/`\s`/`П`). -/
def gostOpt (l : List Char) : Option (List Char × List Char) :=
  match dropLitCI "ГОСТ".toList l with
  | none => none
  | some (g0, r) =>
    match spanRun1 isDig (spanRun isWs r).2 with
    | none => none
    | some (d1, r2) =>
      match r2 with
      | [] => none
      | y :: r3 =>
        if y = '-' ∨ y = '–' then
          match spanRun1 isDig r3 with
          | none => none
          | some (d2, r4) =>
            some (g0 ++ (spanRun isWs r).1 ++ d1 ++ y :: (d2 ++ (spanRun isWs r4).1),
              (spanRun isWs r4).2)
        else none

/-- `LINE_RE` tried at one position.  The optional prefix is tried first
(greedy `?`); if it succeeds but the rest fails, the engine falls back to
matching without it (which then necessarily fails on the leading `Г`, but
the fall-back is kept for faithfulness).  Returns (captured `fullname`,
captured `qty`). -/
def matchLineAt (l : List Char) : Option (List Char × Nat) :=
  match gostOpt l with
  | some (g, r) =>
    match matchPrutok r with
    | some (m, q) => some (g ++ m, q)
    | none => matchPrutok l
  | none => matchPrutok l

/-- `LINE_RE.search`, projected to the `fullname` and `qty` groups. -/
def lineSearch (l : List Char) : Option (List Char × Nat) := searchWith matchLineAt l

/-- One alternative `<pat>\d+` of `OBJECT_RE`'s code group (case-sensitive:
`OBJECT_RE` has no `IGNORECASE` flag). -/
def matchAltCS (pat : String) (l : List Char) : Option (String × List Char) :=
  match dropLit pat.toList l with
  | none => none
  | some r =>
    match spanRun1 isDig r with
    | none => none
    | some (d, r2) => some (String.mk (pat.toList ++ d), r2)

/-- `OBJECT_RE`'s first group `(Км-\d+|СЖм-\d+|СТм-\d+|Бм-\d+|Пм-\d+)`,
case-sensitive. -/
def matchObjectCode (l : List Char) : Option (String × List Char) :=
  orO (matchAltCS "Км-" l) (orO (matchAltCS "СЖм-" l) (orO (matchAltCS "СТм-" l)
    (orO (matchAltCS "Бм-" l) (matchAltCS "Пм-" l))))

/-- `OBJECT_RE` (`(Км-\d+|…)\s+(\d+)`) tried at one position, returning
both captured groups and the rest of the input after the match. -/
def matchObjectAt (l : List Char) : Option (String × Nat × List Char) :=
  match matchObjectCode l with
  | none => none
  | some (code, r) =>
    match wsNum r with
    | none => none
    | some (q, r2) => some (code, q, r2)

/-- Model of `OBJECT_RE.findall`: non-overlapping matches, scanning left to
right and continuing after each match.  The fuel argument is the length of
the remaining input; every step consumes at least one character (a match
consumes at least the code's literal prefix), so the fuel never runs out
before the input does. -/
def objectFindAllAux : Nat → List Char → List (String × Nat)
  | 0, _ => []
  | _ + 1, [] => []
  | fuel + 1, c :: t =>
    match matchObjectAt (c :: t) with
    | some (code, q, rest) => (code, q) :: objectFindAllAux fuel rest
    | none => objectFindAllAux fuel t

/-- `OBJECT_RE.findall` over a whole page text. -/
def objectFindAll (l : List Char) : List (String × Nat) :=
  objectFindAllAux l.length l

/-- Insert-or-overwrite into an insertion-ordered association list, as
assignment to a Python `dict` key behaves. -/
def insertDict (m : List (String × Nat)) (k : String) (v : Nat) : List (String × Nat) :=
  match m with
  | [] => [(k, v)]
  | (k', v') :: t => if k' = k then (k, v) :: t else (k', v') :: insertDict t k v

/-- Python `dict` lookup without default. -/
def lookupVal : List (String × Nat) → String → Option Nat
  | [], _ => none
  | (k', v) :: t, k => if k' = k then some v else lookupVal t k

/-- Python `dict.get k d`. -/
def lookupD (m : List (String × Nat)) (k : String) (d : Nat) : Nat :=
  match lookupVal m k with
  | some v => v
  | none => d

/-- The value of the last pair of `ps` whose key is `k` (duplicate keys:
last occurrence wins). -/
def lastOcc : List (String × Nat) → String → Option Nat
  | [], _ => none
  | (k', v) :: t, k =>
    match lastOcc t k with
    | some v' => some v'
    | none => if k' = k then some v else none

/-- `extract_object_counts` (src/main.py:80-82).  The argument models
`pdf.pages[0].extract_text()`, which may be `None`; the source's `or ""`
turns that into the empty text.  The dict comprehension
`{m: int(q) for m, q in OBJECT_RE.findall(text)}` is the fold of
insert-or-overwrite over the `findall` pairs. -/
def extract_object_counts (page0 : Option String) : List (String × Nat) :=
  (objectFindAll ((page0.getD "").toList)).foldl (fun m p => insertDict m p.1 p.2) []

/-- Python `str.strip`: remove whitespace from both ends. -/
def stripChars (l : List Char) : List Char :=
  ((l.dropWhile isWs).reverse.dropWhile isWs).reverse

/-- Python `str.splitlines`, with `'\n'` as the newline. -/
def splitLinesAux : List Char → List Char → List (List Char)
  | [], cur => if cur = [] then [] else [cur]
  | c :: t, cur => if c = '\n' then cur :: splitLinesAux t [] else splitLinesAux t (cur ++ [c])

/-- Split a page text into lines. -/
def splitLines (l : List Char) : List (List Char) := splitLinesAux l []

/-- The aggregation key `(current_element, fullname, diameter, length)`
(src/main.py:148). -/
abbrev Key := String × String × Nat × Nat

/-- One value of the `rows` defaultdict: `"Прутки напрямую"` (direct),
`"Прутки в ЗД"` (inEmb), `"Кол-во ЗД"` (embCnt). -/
structure RowRecord where
  direct : Nat
  inEmb : Nat
  embCnt : Nat
deriving DecidableEq, Repr

/-- The defaultdict's default value: all three counters zero. -/
def emptyRecord : RowRecord := ⟨0, 0, 0⟩

/-- The insertion-ordered `rows` table. -/
abbrev Rows := List (Key × RowRecord)

/-- The classifier state threaded through `digitize`'s scan
(src/main.py:92-94): `current_element`, `embedded_qty`, `in_embedded`. -/
structure ScanState where
  current_element : Option String
  embedded_qty : Nat
  in_embedded : Bool
deriving DecidableEq, Repr

/-- The initial classifier state: no element, zero embedded quantity, not
in an embedded context. -/
def initState : ScanState := ⟨none, 0, false⟩

/-- A rod-quantity event: the key, the captured quantity, and the
`in_embedded` / `embedded_qty` classifier values at emission time. -/
structure RodEvent where
  key : Key
  qty : Nat
  embedded : Bool
  embQty : Nat
deriving DecidableEq, Repr

/-- Look up a key in the `rows` table. -/
def findRow : Rows → Key → Option RowRecord
  | [], _ => none
  | (k', r) :: t, k => if k' = k then some r else findRow t k

/-- `rows[key]` access followed by a field update: the defaultdict creates
the record (at the end, preserving insertion order) if the key is new. -/
def updateRow : Rows → Key → (RowRecord → RowRecord) → Rows
  | [], k, f => [(k, f emptyRecord)]
  | (k', r) :: t, k, f => if k' = k then (k', f r) :: t else (k', r) :: updateRow t k f

/-- The aggregation step (src/main.py:150-154): an embedded-context event
adds its quantity to `"Прутки в ЗД"` and overwrites `"Кол-во ЗД"` with the
event's embedded quantity; a direct event adds to `"Прутки напрямую"`. -/
def applyEvent (rows : Rows) (ev : RodEvent) : Rows :=
  if ev.embedded then
    updateRow rows ev.key (fun r => { r with inEmb := r.inEmb + ev.qty, embCnt := ev.embQty })
  else
    updateRow rows ev.key (fun r => { r with direct := r.direct + ev.qty })

/-- The rod-line branch after `LINE_RE` matched (src/main.py:138-152):
strip the captured name, try `SIZE_RE` on it; on failure no event is
emitted, otherwise emit the rod-quantity event for the current element. -/
def rodAction (st : ScanState) (elem : String) (fullnameRaw : List Char) (qty : Nat) :
    Option RodEvent :=
  let fullname := stripChars fullnameRaw
  match sizeSearch fullname with
  | none => none
  | some (d, len) =>
    some ⟨(elem, String.mk fullname, d, len), qty, st.in_embedded, st.embedded_qty⟩

/-- Classification of one line (src/main.py:104-152): skip blank lines,
then try the recognizers in the source's priority order — section marker,
element header, the no-current-element guard, embedded quantity line,
embedded header, rod line.  Returns the next state and the emitted event,
if any. -/
def classifyLine (st : ScanState) (line : List Char) : ScanState × Option RodEvent :=
  if stripChars line = [] then (st, none)
  else
    match specElementsSearch line with
    | some code => (⟨some code, 0, false⟩, none)
    | none =>
      match specHeaderSearch line with
      | some code => (⟨some code, 0, false⟩, none)
      | none =>
        match st.current_element with
        | none => (st, none)
        | some elem =>
          match embeddedLineSearch line with
          | some q => ({ st with embedded_qty := q }, none)
          | none =>
            if embeddedHeaderSearch line then ({ st with in_embedded := true }, none)
            else
              match lineSearch line with
              | none => (st, none)
              | some (fullnameRaw, qty) => (st, rodAction st elem fullnameRaw qty)

/-- One line of `digitize`'s inner loop: classify, then apply the emitted
event (if any) to the `rows` table. -/
def stepLine (acc : ScanState × Rows) (line : List Char) : ScanState × Rows :=
  match classifyLine acc.1 line with
  | (st', none) => (st', acc.2)
  | (st', some ev) => (st', applyEvent acc.2 ev)

/-- The lines of one page: a page with no extractable text contributes no
lines (src/main.py:100-102). -/
def pageLines : Option String → List (List Char)
  | none => []
  | some t => splitLines t.toList

/-- One page of `digitize`'s outer loop. -/
def stepPage (acc : ScanState × Rows) (page : Option String) : ScanState × Rows :=
  (pageLines page).foldl stepLine acc

/-- The scan of `digitize` over pages 1..N (page 0 is skipped,
src/main.py:96-98), producing the final `rows` table. -/
def scanDocument (pages : List (Option String)) : Rows :=
  ((pages.drop 1).foldl stepPage (initState, [])).2

/-- One output row of `digitize` (src/main.py:165-175). -/
structure OutputRow where
  element : String
  name : String
  diameter : Nat
  rodLen : Nat
  direct : Nat
  inEmb : Nat
  objCount : Nat
  embCount : Nat
  total : Nat
deriving DecidableEq, Repr

/-- Projection of one aggregation record to an output row
(src/main.py:156-175): the object multiplier defaults to 1 for element
codes absent from the object-count map, and the grand total is
`direct*obj + inEmb*embCnt*obj`. -/
def projectRow (object_counts : List (String × Nat)) (p : Key × RowRecord) : OutputRow :=
  let obj := lookupD object_counts p.1.1 1
  { element := p.1.1
    name := p.1.2.1
    diameter := p.1.2.2.1
    rodLen := p.1.2.2.2
    direct := p.2.direct
    inEmb := p.2.inEmb
    objCount := obj
    embCount := p.2.embCnt
    total := p.2.direct * obj + p.2.inEmb * p.2.embCnt * obj }

/-- `digitize` (src/main.py:85-177): scan the document, then project every
aggregation record, in insertion order, to an output row. -/
def digitize (pages : List (Option String)) (object_counts : List (String × Nat)) :
    List OutputRow :=
  (scanDocument pages).map (projectRow object_counts)

/-- The key fields of an output row. -/
def rowKey (r : OutputRow) : Key := (r.element, r.name, r.diameter, r.rodLen)

/-- The event trace of the scan: the rod-quantity events emitted by
`classifyLine` while scanning the given lines from the given state. -/
def scanEvents : ScanState → List (List Char) → List RodEvent
  | _, [] => []
  | st, l :: t =>
    match classifyLine st l with
    | (st', none) => scanEvents st' t
    | (st', some ev) => ev :: scanEvents st' t

/-- All lines of the document body (pages 1..N), in scan order. -/
def docLines (pages : List (Option String)) : List (List Char) :=
  ((pages.drop 1).map pageLines).flatten

/-- The document's event trace. -/
def eventsOf (pages : List (Option String)) : List RodEvent :=
  scanEvents initState (docLines pages)

/-- First-occurrence order: keep the first occurrence of each element and
drop later duplicates. -/
def firstOccur (ks : List Key) : List Key :=
  ks.foldl (fun acc k => if k ∈ acc then acc else acc ++ [k]) []

/-- The shape of a successful match of the size token
`[Ø∅]?\s*\d+\s*[xх]\s*\d+`: an optional `Ø`-class character, a whitespace
run, a non-empty digit run, a whitespace run, an `x`-class character, a
whitespace run, and a non-empty digit run. -/
def TokShape (m : List Char) : Prop :=
  ∃ o ws1 d1 ws2 x ws3 d2,
    m = o ++ ws1 ++ d1 ++ ws2 ++ x :: (ws3 ++ d2) ∧
    (o = [] ∨ ∃ c, o = [c] ∧ isOslash c = true) ∧
    (∀ c ∈ ws1, isWs c = true) ∧ (∀ c ∈ d1, isDig c = true) ∧ d1 ≠ [] ∧
    (∀ c ∈ ws2, isWs c = true) ∧ isXchar x = true ∧
    (∀ c ∈ ws3, isWs c = true) ∧ (∀ c ∈ d2, isDig c = true) ∧ d2 ≠ []

/-- Invariant of a successful `scanTok` result: the consumed text ends in
the size token followed by an optional grade suffix whose first character
is not a digit, and its last character is not whitespace. -/
def ScanTokSpec (m : List Char) : Prop :=
  (∃ A tok g, m = A ++ (tok ++ g) ∧ TokShape tok ∧
    (∀ c, g.head? = some c → isDig c = false)) ∧
  (∀ c, m.getLast? = some c → isWs c = false)

/-- Invariant of a captured `fullname`: it contains the size token (with a
digit-free continuation inside the name), and neither starts nor ends with
whitespace, so `str.strip` leaves it unchanged. -/
def FnShape (fn : List Char) : Prop :=
  (∃ A tok g, fn = A ++ (tok ++ g) ∧ TokShape tok ∧
    (∀ c, g.head? = some c → isDig c = false)) ∧
  (∀ c, fn.head? = some c → isWs c = false) ∧
  (∀ c, fn.getLast? = some c → isWs c = false)

/-! ### Character-class lemmas -/

theorem ws_lower {c : Char} (h : isWs c = true) : lowerChar c = c := by
  simp only [isWs, Bool.or_eq_true, decide_eq_true_eq] at h
  simp only [lowerChar]
  rw [if_neg (by omega), if_neg (by omega), if_neg (by omega), if_neg (by omega)]

theorem dig_lower {c : Char} (h : isDig c = true) : lowerChar c = c := by
  simp only [isDig, Bool.and_eq_true, decide_eq_true_eq] at h
  simp only [lowerChar]
  rw [if_neg (by omega), if_neg (by omega), if_neg (by omega), if_neg (by omega)]

theorem dig_not_ws {c : Char} (h : isDig c = true) : isWs c = false := by
  simp only [isDig, Bool.and_eq_true, decide_eq_true_eq] at h
  simp only [isWs, Bool.or_eq_false_iff, decide_eq_false_iff_not]
  omega

theorem ws_not_dig {c : Char} (h : isWs c = true) : isDig c = false := by
  simp only [isWs, Bool.or_eq_true, decide_eq_true_eq] at h
  simp only [isDig, Bool.and_eq_false_iff, decide_eq_false_iff_not]
  omega

theorem not_ws_of_lower {c d : Char} (h : lowerChar c = d) (hd : isWs d = false) :
    isWs c = false := by
  by_contra hne
  have hw : isWs c = true := by revert hne; cases isWs c <;> simp
  rw [ws_lower hw] at h
  rw [h] at hw
  rw [hw] at hd
  simp at hd

theorem x_not_ws {c : Char} (h : isXchar c = true) : isWs c = false := by
  simp only [isXchar, Bool.or_eq_true, decide_eq_true_eq] at h
  rcases h with h | h
  · exact not_ws_of_lower h (by decide)
  · exact not_ws_of_lower h (by decide)

theorem x_not_dig {c : Char} (h : isXchar c = true) : isDig c = false := by
  simp only [isXchar, Bool.or_eq_true, decide_eq_true_eq] at h
  by_contra hne
  have hd : isDig c = true := by revert hne; cases isDig c <;> simp
  have hl := dig_lower hd
  rcases h with h | h <;> (rw [hl] at h; subst h; exact absurd hd (by decide))

theorem ws_not_oslash {c : Char} (h : isWs c = true) : isOslash c = false := by
  simp only [isOslash, Bool.or_eq_false_iff, decide_eq_false_iff_not]
  have hl := ws_lower h
  constructor
  · intro he; rw [hl] at he; subst he; exact absurd h (by decide)
  · intro he; subst he; exact absurd h (by decide)

theorem dig_not_oslash {c : Char} (h : isDig c = true) : isOslash c = false := by
  simp only [isOslash, Bool.or_eq_false_iff, decide_eq_false_iff_not]
  have hl := dig_lower h
  constructor
  · intro he; rw [hl] at he; subst he; exact absurd h (by decide)
  · intro he; subst he; exact absurd h (by decide)

/-! ### Runs and spans -/

theorem takeWhile_all {p : Char → Bool} {a b : List Char}
    (ha : ∀ c ∈ a, p c = true) (hb : ∀ c, b.head? = some c → p c = false) :
    (a ++ b).takeWhile p = a := by
  induction a with
  | nil =>
    rw [List.nil_append]
    cases b with
    | nil => rfl
    | cons c t => rw [List.takeWhile_cons, if_neg (by simp [hb c rfl])]
  | cons c t ih =>
    have hc := ha c (by simp)
    rw [List.cons_append, List.takeWhile_cons, if_pos hc,
      ih (fun x hx => ha x (by simp [hx]))]

theorem dropWhile_all {p : Char → Bool} {a b : List Char}
    (ha : ∀ c ∈ a, p c = true) (hb : ∀ c, b.head? = some c → p c = false) :
    (a ++ b).dropWhile p = b := by
  induction a with
  | nil =>
    rw [List.nil_append]
    cases b with
    | nil => rfl
    | cons c t => rw [List.dropWhile_cons, if_neg (by simp [hb c rfl])]
  | cons c t ih =>
    have hc := ha c (by simp)
    rw [List.cons_append, List.dropWhile_cons, if_pos hc]
    exact ih (fun x hx => ha x (by simp [hx]))

theorem spanRun_eq {p : Char → Bool} {a b : List Char}
    (ha : ∀ c ∈ a, p c = true) (hb : ∀ c, b.head? = some c → p c = false) :
    spanRun p (a ++ b) = (a, b) := by
  simp [spanRun, takeWhile_all ha hb, dropWhile_all ha hb]

theorem spanRun1_eq {p : Char → Bool} {a b : List Char} (hne : a ≠ [])
    (ha : ∀ c ∈ a, p c = true) (hb : ∀ c, b.head? = some c → p c = false) :
    spanRun1 p (a ++ b) = some (a, b) := by
  simp [spanRun1, takeWhile_all ha hb, dropWhile_all ha hb, hne]

theorem spanRun1_some {p : Char → Bool} {l a r : List Char}
    (h : spanRun1 p l = some (a, r)) :
    l = a ++ r ∧ a ≠ [] ∧ (∀ c ∈ a, p c = true) ∧
      (∀ c, r.head? = some c → p c = false) := by
  simp only [spanRun1] at h
  split at h
  · exact absurd h (by simp)
  · rename_i hne
    have h1 : a = l.takeWhile p ∧ r = l.dropWhile p := by
      have := h
      simp only [Option.some.injEq, Prod.mk.injEq] at this
      exact ⟨this.1.symm, this.2.symm⟩
    obtain ⟨ha, hr⟩ := h1
    subst ha; subst hr
    refine ⟨(List.takeWhile_append_dropWhile ..).symm, hne, ?_, ?_⟩
    · intro c hc; exact List.mem_takeWhile_imp hc
    · intro c hc
      cases hd : l.dropWhile p with
      | nil => rw [hd] at hc; simp at hc
      | cons x t =>
        rw [hd] at hc
        simp only [List.head?_cons, Option.some.injEq] at hc
        subst hc
        have := List.head?_dropWhile_not p l
        rw [hd] at this
        simpa using this

theorem spanRun_spec {p : Char → Bool} {l : List Char} :
    l = (spanRun p l).1 ++ (spanRun p l).2 ∧ (∀ c ∈ (spanRun p l).1, p c = true) ∧
      (∀ c, (spanRun p l).2.head? = some c → p c = false) := by
  simp only [spanRun]
  refine ⟨(List.takeWhile_append_dropWhile ..).symm, ?_, ?_⟩
  · intro c hc; exact List.mem_takeWhile_imp hc
  · intro c hc
    cases hd : l.dropWhile p with
    | nil => rw [hd] at hc; simp at hc
    | cons x t =>
      rw [hd] at hc
      simp only [List.head?_cons, Option.some.injEq] at hc
      subst hc
      have := List.head?_dropWhile_not p l
      rw [hd] at this
      simpa using this

/-! ### Search -/

theorem searchWith_drop {α : Type} {m : List Char → Option α} {l : List Char} {a : α}
    (h : searchWith m l = some a) : ∃ n, m (l.drop n) = some a := by
  induction l with
  | nil => exact ⟨0, h⟩
  | cons c t ih =>
    rw [searchWith] at h
    cases hm : m (c :: t) with
    | some b =>
      rw [hm] at h
      exact ⟨0, by rw [List.drop_zero, hm]; exact h⟩
    | none =>
      rw [hm] at h
      obtain ⟨n, hn⟩ := ih h
      exact ⟨n + 1, hn⟩

theorem searchWith_isSome {α : Type} {m : List Char → Option α} {l : List Char} (n : Nat)
    (h : (m (l.drop n)).isSome = true) : (searchWith m l).isSome = true := by
  induction l generalizing n with
  | nil => simpa [searchWith] using h
  | cons c t ih =>
    rw [searchWith]
    cases hm : m (c :: t) with
    | some b => simp
    | none =>
      cases n with
      | zero => rw [List.drop_zero] at h; rw [hm] at h; simp at h
      | succ n' => exact ih n' (by simpa using h)

theorem searchWith_head {α : Type} {m : List Char → Option α} {p : Char → Bool}
    (hm : ∀ l a, m l = some a → ∃ c t, l = c :: t ∧ p c = true) :
    ∀ {l : List Char} {a : α}, searchWith m l = some a → ∃ c, c ∈ l ∧ p c = true := by
  intro l
  induction l with
  | nil =>
    intro a h
    obtain ⟨c, t, hct, _⟩ := hm _ _ h
    exact absurd hct (by simp)
  | cons c t ih =>
    intro a h
    rw [searchWith] at h
    cases hmc : m (c :: t) with
    | some b =>
      obtain ⟨c', t', hct, hp⟩ := hm _ _ hmc
      injection hct with h1 h2
      subst h1
      exact ⟨c, by simp, hp⟩
    | none =>
      rw [hmc] at h
      obtain ⟨c', hc', hp⟩ := ih h
      exact ⟨c', by simp [hc'], hp⟩

/-! ### Literal matching -/

theorem dropLitCI_append : ∀ {ps l m r : List Char},
    dropLitCI ps l = some (m, r) → l = m ++ r
  | [], l, m, r, h => by
    simp only [dropLitCI, Option.some.injEq, Prod.mk.injEq] at h
    rw [← h.1, List.nil_append, h.2]
  | _ :: _, [], _, _, h => by simp [dropLitCI] at h
  | p :: ps, c :: cs, m, r, h => by
    simp only [dropLitCI] at h
    split at h
    · cases hrec : dropLitCI ps cs with
      | none => rw [hrec] at h; simp at h
      | some pr =>
        rw [hrec] at h
        simp only [Option.some.injEq, Prod.mk.injEq] at h
        have := dropLitCI_append (m := pr.1) (r := pr.2) (by rw [hrec])
        rw [← h.1, ← h.2, List.cons_append, ← this]
    · simp at h

theorem dropLitCI_head {p : Char} {ps l : List Char} {x : List Char × List Char}
    (h : dropLitCI (p :: ps) l = some x) :
    ∃ c t, l = c :: t ∧ lowerChar c = lowerChar p := by
  cases l with
  | nil => simp [dropLitCI] at h
  | cons c t =>
    simp only [dropLitCI] at h
    split at h
    · exact ⟨c, t, rfl, by assumption⟩
    · simp at h

theorem head_not_ws_of_dropLitCI {p : Char} {ps l : List Char} {x : List Char × List Char}
    (h : dropLitCI (p :: ps) l = some x) (hp : isWs (lowerChar p) = false) :
    ∃ c t, l = c :: t ∧ isWs c = false := by
  obtain ⟨c, t, hl, hlow⟩ := dropLitCI_head h
  refine ⟨c, t, hl, ?_⟩
  by_contra hne
  have hw : isWs c = true := by revert hne; cases isWs c <;> simp
  rw [ws_lower hw] at hlow
  rw [hlow] at hw
  rw [hw] at hp
  simp at hp

theorem dropLit_append : ∀ {ps l r : List Char}, dropLit ps l = some r → l = ps ++ r
  | [], l, r, h => by
    simp only [dropLit, Option.some.injEq] at h
    rw [List.nil_append, h]
  | _ :: _, [], _, h => by simp [dropLit] at h
  | p :: ps, c :: cs, r, h => by
    simp only [dropLit] at h
    split at h
    · rename_i hc
      rw [hc, List.cons_append, ← dropLit_append h]
    · simp at h

/-! ### Stripping -/

theorem dropWhile_head_not {p : Char → Bool} {l : List Char}
    (h : ∀ c, l.head? = some c → p c = false) : l.dropWhile p = l := by
  cases l with
  | nil => rfl
  | cons c t => rw [List.dropWhile_cons, if_neg (by simp [h c rfl])]

theorem stripChars_eq_self {l : List Char}
    (h1 : ∀ c, l.head? = some c → isWs c = false)
    (h2 : ∀ c, l.getLast? = some c → isWs c = false) :
    stripChars l = l := by
  rw [stripChars, dropWhile_head_not h1, dropWhile_head_not, List.reverse_reverse]
  intro c hc
  rw [List.head?_reverse] at hc
  exact h2 c hc

theorem mem_dropWhile_of_not {p : Char → Bool} {c : Char} {l : List Char}
    (hc : c ∈ l) (hp : p c = false) : c ∈ l.dropWhile p := by
  induction l with
  | nil => simp at hc
  | cons x t ih =>
    rw [List.dropWhile_cons]
    by_cases hx : p x = true
    · rw [if_pos hx]
      rcases List.mem_cons.mp hc with h | h
      · subst h; rw [hp] at hx; simp at hx
      · exact ih h
    · rw [if_neg hx]
      exact hc

theorem stripChars_ne_nil {c : Char} {l : List Char} (hc : c ∈ l) (hp : isWs c = false) :
    stripChars l ≠ [] := by
  intro hnil
  rw [stripChars] at hnil
  have h1 : (l.dropWhile isWs).reverse.dropWhile isWs = [] := by
    have := congrArg List.reverse hnil
    rwa [List.reverse_reverse, List.reverse_nil] at this
  have hc1 : c ∈ l.dropWhile isWs := mem_dropWhile_of_not hc hp
  have hc2 : c ∈ (l.dropWhile isWs).reverse := List.mem_reverse.mpr hc1
  have hc3 : c ∈ (l.dropWhile isWs).reverse.dropWhile isWs := mem_dropWhile_of_not hc2 hp
  rw [h1] at hc3
  simp at hc3

/-! ### Head characters of successful matches -/

theorem orO_some {α : Type} {a b : Option α} {x : α} (h : orO a b = some x) :
    a = some x ∨ b = some x := by
  cases a with
  | some y => left; exact h
  | none => right; exact h

theorem dropLitCI_head' {pat l : List Char} {x : List Char × List Char} {q : Char}
    (hq : pat.head? = some q) (h : dropLitCI pat l = some x) :
    ∃ c t, l = c :: t ∧ lowerChar c = lowerChar q := by
  cases pat with
  | nil => simp at hq
  | cons p ps =>
    simp only [List.head?_cons, Option.some.injEq] at hq
    subst hq
    exact dropLitCI_head h

theorem head_not_ws_of_lit {pat l : List Char} {x : List Char × List Char} {q : Char}
    (hq : pat.head? = some q) (hw : isWs (lowerChar q) = false)
    (h : dropLitCI pat l = some x) :
    ∃ c t, l = c :: t ∧ isWs c = false := by
  obtain ⟨c, t, hl, hlow⟩ := dropLitCI_head' hq h
  exact ⟨c, t, hl, not_ws_of_lower hlow hw⟩

theorem kwAlt_head {pat : String} {l r : List Char} {q : Char}
    (hq : pat.toList.head? = some q) (hw : isWs (lowerChar q) = false)
    (h : kwAlt pat l = some r) :
    ∃ c t, l = c :: t ∧ isWs c = false := by
  rw [kwAlt] at h
  cases h1 : dropLitCI pat.toList l with
  | none => rw [h1] at h; simp at h
  | some pr => exact head_not_ws_of_lit hq hw h1

theorem specElementsAt_head {l : List Char} {s : String} (h : specElementsAt l = some s) :
    ∃ c t, l = c :: t ∧ isWs c = false := by
  rw [specElementsAt] at h
  cases h1 : dropLitCI "Спецификация".toList l with
  | none => rw [h1] at h; simp at h
  | some pr => exact head_not_ws_of_lit (q := 'С') (by decide) (by decide) h1

theorem stenyAlt_head {l r : List Char} (h : stenyAlt l = some r) :
    ∃ c t, l = c :: t ∧ isWs c = false := by
  rw [stenyAlt] at h
  cases h1 : dropLitCI "Стены".toList l with
  | none => rw [h1] at h; simp at h
  | some pr => exact head_not_ws_of_lit (q := 'С') (by decide) (by decide) h1

theorem headerKw_head {l r : List Char} (h : headerKw l = some r) :
    ∃ c t, l = c :: t ∧ isWs c = false := by
  rw [headerKw] at h
  rcases orO_some h with h | h
  · exact kwAlt_head (q := 'К') (by decide) (by decide) h
  rcases orO_some h with h | h
  · exact kwAlt_head (q := 'Б') (by decide) (by decide) h
  rcases orO_some h with h | h
  · exact kwAlt_head (q := 'П') (by decide) (by decide) h
  rcases orO_some h with h | h
  · exact stenyAlt_head h
  · exact kwAlt_head (q := 'С') (by decide) (by decide) h

theorem specHeaderAt_head {l : List Char} {s : String} (h : specHeaderAt l = some s) :
    ∃ c t, l = c :: t ∧ isWs c = false := by
  rw [specHeaderAt] at h
  cases h1 : headerKw l with
  | none => rw [h1] at h; simp at h
  | some r => exact headerKw_head h1

theorem embeddedHeaderCore_head {l r : List Char} (h : embeddedHeaderCore l = some r) :
    ∃ c t, l = c :: t ∧ isWs c = false := by
  rw [embeddedHeaderCore] at h
  cases h1 : dropLitCI "Изделие".toList l with
  | none => rw [h1] at h; simp at h
  | some pr => exact head_not_ws_of_lit (q := 'И') (by decide) (by decide) h1

theorem embeddedLineAt_head {l : List Char} {q : Nat} (h : embeddedLineAt l = some q) :
    ∃ c t, l = c :: t ∧ isWs c = false := by
  rw [embeddedLineAt] at h
  cases h1 : embeddedHeaderCore l with
  | none => rw [h1] at h; simp at h
  | some r => exact embeddedHeaderCore_head h1

theorem matchPrutok_head {l : List Char} {x : List Char × Nat} (h : matchPrutok l = some x) :
    ∃ c t, l = c :: t ∧ isWs c = false := by
  rw [matchPrutok] at h
  cases h1 : dropLitCI "Пруток".toList l with
  | none => rw [h1] at h; simp at h
  | some pr => exact head_not_ws_of_lit (q := 'П') (by decide) (by decide) h1

theorem matchLineAt_head {l : List Char} {x : List Char × Nat} (h : matchLineAt l = some x) :
    ∃ c t, l = c :: t ∧ isWs c = false := by
  rw [matchLineAt] at h
  cases h1 : gostOpt l with
  | some gr =>
    rw [gostOpt] at h1
    cases h2 : dropLitCI "ГОСТ".toList l with
    | none => rw [h2] at h1; simp at h1
    | some pr => exact head_not_ws_of_lit (q := 'Г') (by decide) (by decide) h2
  | none =>
    rw [h1] at h
    exact matchPrutok_head h

/-! ### Non-blank lines -/

theorem strip_ne_of_specElements {l : List Char} {s : String}
    (h : specElementsSearch l = some s) : stripChars l ≠ [] := by
  have hm : ∀ l' a, specElementsAt l' = some a →
      ∃ c t, l' = c :: t ∧ (!(isWs c)) = true := by
    intro l' a ha
    obtain ⟨c, t, hl, hw⟩ := specElementsAt_head ha
    exact ⟨c, t, hl, by rw [hw]; rfl⟩
  obtain ⟨c, hc, hw⟩ := searchWith_head hm h
  exact stripChars_ne_nil hc (by revert hw; cases isWs c <;> simp)

theorem strip_ne_of_specHeader {l : List Char} {s : String}
    (h : specHeaderSearch l = some s) : stripChars l ≠ [] := by
  have hm : ∀ l' a, specHeaderAt l' = some a →
      ∃ c t, l' = c :: t ∧ (!(isWs c)) = true := by
    intro l' a ha
    obtain ⟨c, t, hl, hw⟩ := specHeaderAt_head ha
    exact ⟨c, t, hl, by rw [hw]; rfl⟩
  obtain ⟨c, hc, hw⟩ := searchWith_head hm h
  exact stripChars_ne_nil hc (by revert hw; cases isWs c <;> simp)

theorem strip_ne_of_embeddedLine {l : List Char} {q : Nat}
    (h : embeddedLineSearch l = some q) : stripChars l ≠ [] := by
  have hm : ∀ l' a, embeddedLineAt l' = some a →
      ∃ c t, l' = c :: t ∧ (!(isWs c)) = true := by
    intro l' a ha
    obtain ⟨c, t, hl, hw⟩ := embeddedLineAt_head ha
    exact ⟨c, t, hl, by rw [hw]; rfl⟩
  obtain ⟨c, hc, hw⟩ := searchWith_head hm h
  exact stripChars_ne_nil hc (by revert hw; cases isWs c <;> simp)

theorem strip_ne_of_line {l : List Char} {x : List Char × Nat}
    (h : lineSearch l = some x) : stripChars l ≠ [] := by
  have hm : ∀ l' a, matchLineAt l' = some a →
      ∃ c t, l' = c :: t ∧ (!(isWs c)) = true := by
    intro l' a ha
    obtain ⟨c, t, hl, hw⟩ := matchLineAt_head ha
    exact ⟨c, t, hl, by rw [hw]; rfl⟩
  obtain ⟨c, hc, hw⟩ := searchWith_head hm h
  exact stripChars_ne_nil hc (by revert hw; cases isWs c <;> simp)

/-! ### The classification cascade -/

theorem rodAction_some {st : ScanState} {elem : String} {fn : List Char} {q : Nat}
    {ev : RodEvent} (h : rodAction st elem fn q = some ev) :
    ev.embedded = st.in_embedded ∧ ev.embQty = st.embedded_qty ∧ ev.qty = q ∧
      ev.key.1 = elem := by
  simp only [rodAction] at h
  cases hs : sizeSearch (stripChars fn) with
  | none => rw [hs] at h; simp at h
  | some dl =>
    obtain ⟨d, len⟩ := dl
    rw [hs] at h
    simp only [Option.some.injEq] at h
    subst h
    exact ⟨rfl, rfl, rfl, rfl⟩

theorem classify_guard {st : ScanState} {line : List Char}
    (he : st.current_element = none)
    (h1 : specElementsSearch line = none) (h2 : specHeaderSearch line = none) :
    classifyLine st line = (st, none) := by
  rw [classifyLine]
  split
  · rfl
  · rw [h1, h2, he]

theorem classify_specElements {st : ScanState} {line : List Char} {code : String}
    (h : specElementsSearch line = some code) :
    classifyLine st line = (⟨some code, 0, false⟩, none) := by
  rw [classifyLine, if_neg (strip_ne_of_specElements h), h]

theorem classify_specHeader {st : ScanState} {line : List Char} {code : String}
    (h1 : specElementsSearch line = none) (h2 : specHeaderSearch line = some code) :
    classifyLine st line = (⟨some code, 0, false⟩, none) := by
  rw [classifyLine, if_neg (strip_ne_of_specHeader h2), h1, h2]

theorem classify_embeddedLine {st : ScanState} {line : List Char} {elem : String} {q : Nat}
    (he : st.current_element = some elem)
    (h1 : specElementsSearch line = none) (h2 : specHeaderSearch line = none)
    (h3 : embeddedLineSearch line = some q) :
    classifyLine st line = ({ st with embedded_qty := q }, none) := by
  rw [classifyLine, if_neg (strip_ne_of_embeddedLine h3), h1, h2, he, h3]

theorem classify_noMatch (st : ScanState) {line : List Char}
    (h1 : specElementsSearch line = none) (h2 : specHeaderSearch line = none)
    (h3 : embeddedLineSearch line = none) (h4 : embeddedHeaderSearch line = false)
    (h5 : lineSearch line = none) :
    classifyLine st line = (st, none) := by
  rw [classifyLine]
  split
  · rfl
  · rw [h1, h2]
    cases he : st.current_element with
    | none => rfl
    | some elem => rw [h3, h4, h5]; simp

theorem classify_emitted {st : ScanState} {line : List Char} {st' : ScanState}
    {ev : RodEvent} (h : classifyLine st line = (st', some ev)) :
    st' = st ∧ ev.embedded = st.in_embedded ∧ ev.embQty = st.embedded_qty := by
  rw [classifyLine] at h
  split at h
  · simp at h
  · cases hse : specElementsSearch line with
    | some code => rw [hse] at h; simp at h
    | none =>
      rw [hse] at h
      cases hsh : specHeaderSearch line with
      | some code => rw [hsh] at h; simp at h
      | none =>
        rw [hsh] at h
        cases he : st.current_element with
        | none => rw [he] at h; simp at h
        | some elem =>
          rw [he] at h
          cases hel : embeddedLineSearch line with
          | some q => rw [hel] at h; simp at h
          | none =>
            rw [hel] at h
            cases heh : embeddedHeaderSearch line with
            | true => rw [heh] at h; simp at h
            | false =>
              rw [heh] at h
              simp only [Bool.false_eq_true, if_false] at h
              cases hls : lineSearch line with
              | none => rw [hls] at h; simp at h
              | some fq =>
                obtain ⟨fn, q⟩ := fq
                rw [hls] at h
                have hst : st = st' ∧ rodAction st elem fn q = some ev := by
                  have := h
                  simp only [Prod.mk.injEq] at this
                  exact ⟨this.1, this.2⟩
                obtain ⟨h6, h7⟩ := hst
                obtain ⟨e1, e2, _, _⟩ := rodAction_some h7
                exact ⟨h6.symm, e1, e2⟩

/-! ### Dictionary lemmas -/

theorem lookupVal_insertDict (m : List (String × Nat)) (k : String) (v : Nat) (k' : String) :
    lookupVal (insertDict m k v) k' = if k = k' then some v else lookupVal m k' := by
  induction m with
  | nil => simp [insertDict, lookupVal]
  | cons p t ih =>
    obtain ⟨k0, v0⟩ := p
    rw [insertDict]
    by_cases h0 : k0 = k
    · subst h0
      rw [if_pos rfl]
      simp only [lookupVal]
      split_ifs <;> rfl
    · rw [if_neg h0]
      simp only [lookupVal]
      rw [ih]
      split_ifs with ha hb <;> simp_all

theorem lookupVal_foldl_insert (ps : List (String × Nat)) (m : List (String × Nat))
    (k : String) :
    lookupVal (ps.foldl (fun m p => insertDict m p.1 p.2) m) k =
      orO (lastOcc ps k) (lookupVal m k) := by
  induction ps generalizing m with
  | nil => rfl
  | cons p t ih =>
    obtain ⟨k0, v0⟩ := p
    rw [List.foldl_cons, ih, lastOcc]
    cases ho : lastOcc t k with
    | some v' => rfl
    | none =>
      rw [lookupVal_insertDict]
      by_cases h1 : k0 = k <;> simp [orO, h1]

/-! ### Aggregation-table lemmas -/

theorem findRow_updateRow (rows : Rows) (k : Key) (f : RowRecord → RowRecord) :
    findRow (updateRow rows k f) k = some (f ((findRow rows k).getD emptyRecord)) := by
  induction rows with
  | nil => simp [updateRow, findRow]
  | cons p t ih =>
    obtain ⟨k0, r0⟩ := p
    rw [updateRow]
    by_cases h0 : k0 = k
    · subst h0
      rw [if_pos rfl]
      simp [findRow]
    · rw [if_neg h0, findRow, if_neg h0, findRow, if_neg h0, ih]

theorem updateRow_keys (rows : Rows) (k : Key) (f : RowRecord → RowRecord) :
    (updateRow rows k f).map Prod.fst =
      if k ∈ rows.map Prod.fst then rows.map Prod.fst else rows.map Prod.fst ++ [k] := by
  induction rows with
  | nil => simp [updateRow]
  | cons p t ih =>
    obtain ⟨k0, r0⟩ := p
    rw [updateRow]
    by_cases h0 : k0 = k
    · subst h0
      rw [if_pos rfl]
      simp
    · rw [if_neg h0]
      by_cases h1 : k ∈ t.map Prod.fst
      · rw [List.map_cons, ih, if_pos h1, List.map_cons,
          if_pos (List.mem_cons_of_mem _ h1)]
      · have h2 : ¬k ∈ (Prod.fst (k0, r0) :: t.map Prod.fst) := by
          intro hmem
          rcases List.mem_cons.mp hmem with he | he
          · exact h0 he.symm
          · exact h1 he
        rw [List.map_cons, ih, if_neg h1, List.map_cons, if_neg h2, List.cons_append]

theorem applyEvent_keys (rows : Rows) (ev : RodEvent) :
    (applyEvent rows ev).map Prod.fst =
      if ev.key ∈ rows.map Prod.fst then rows.map Prod.fst
      else rows.map Prod.fst ++ [ev.key] := by
  rw [applyEvent]
  split
  · exact updateRow_keys ..
  · exact updateRow_keys ..

/-! ### Scan lemmas -/

theorem foldl_stepPage_flatten (pagesL : List (Option String)) (acc : ScanState × Rows) :
    pagesL.foldl stepPage acc = ((pagesL.map pageLines).flatten).foldl stepLine acc := by
  induction pagesL generalizing acc with
  | nil => rfl
  | cons p ps ih =>
    rw [List.foldl_cons, ih, List.map_cons, List.flatten_cons, List.foldl_append]
    rfl

theorem foldl_stepLine_snd (lines : List (List Char)) (st : ScanState) (rows : Rows) :
    (lines.foldl stepLine (st, rows)).2 = (scanEvents st lines).foldl applyEvent rows := by
  induction lines generalizing st rows with
  | nil => rfl
  | cons l t ih =>
    rw [List.foldl_cons]
    cases hc : classifyLine st l with
    | mk st' ev =>
      cases ev with
      | none =>
        have hs : stepLine (st, rows) l = (st', rows) := by rw [stepLine, hc]
        have he : scanEvents st (l :: t) = scanEvents st' t := by rw [scanEvents, hc]
        rw [hs, he, ih]
      | some e =>
        have hs : stepLine (st, rows) l = (st', applyEvent rows e) := by rw [stepLine, hc]
        have he : scanEvents st (l :: t) = e :: scanEvents st' t := by rw [scanEvents, hc]
        rw [hs, he, List.foldl_cons, ih]

theorem keys_foldl_applyEvent (evs : List RodEvent) (rows : Rows) :
    (evs.foldl applyEvent rows).map Prod.fst =
      (evs.map RodEvent.key).foldl
        (fun acc k => if k ∈ acc then acc else acc ++ [k]) (rows.map Prod.fst) := by
  induction evs generalizing rows with
  | nil => rfl
  | cons e t ih =>
    rw [List.foldl_cons, List.map_cons, List.foldl_cons, ih, applyEvent_keys]

theorem rowKey_projectRow (counts : List (String × Nat)) (p : Key × RowRecord) :
    rowKey (projectRow counts p) = p.1 := by
  obtain ⟨⟨a, b, c, d⟩, rec⟩ := p
  rfl

/-! ### Structure of size-token matches -/

theorem mem_of_head {c : Char} {l : List Char} (h : l.head? = some c) : c ∈ l := by
  cases l with
  | nil => simp at h
  | cons x t =>
    simp only [List.head?_cons, Option.some.injEq] at h
    subst h
    simp

theorem mem_of_getLast {c : Char} {l : List Char} (h : l.getLast? = some c) : c ∈ l := by
  rw [← List.head?_reverse] at h
  exact List.mem_reverse.mp (mem_of_head h)

theorem oslashOpt_spec (l : List Char) :
    l = (oslashOpt l).1 ++ (oslashOpt l).2 ∧
      ((oslashOpt l).1 = [] ∨ ∃ c, (oslashOpt l).1 = [c] ∧ isOslash c = true) := by
  cases l with
  | nil => exact ⟨rfl, Or.inl rfl⟩
  | cons c t =>
    rw [oslashOpt]
    by_cases hc : isOslash c = true
    · rw [if_pos hc]
      exact ⟨rfl, Or.inr ⟨c, rfl, hc⟩⟩
    · rw [if_neg hc]
      exact ⟨rfl, Or.inl rfl⟩

theorem oslashOpt_none_of {l : List Char} (h : ∀ c, l.head? = some c → isOslash c = false) :
    oslashOpt l = ([], l) := by
  cases l with
  | nil => rfl
  | cons c t => rw [oslashOpt, if_neg (by simp [h c rfl])]

theorem oslashOpt_cons_of {c : Char} {t : List Char} (h : isOslash c = true) :
    oslashOpt (c :: t) = ([c], t) := by
  rw [oslashOpt, if_pos h]

theorem tokShape_ne_nil {m : List Char} (hm : TokShape m) : m ≠ [] := by
  obtain ⟨o, ws1, d1, ws2, x, ws3, d2, hshape, -, -, -, hd1n, -, -, -, -, -⟩ := hm
  subst hshape
  simp [List.append_eq_nil]

theorem tokShape_getLast {m : List Char} (hm : TokShape m) :
    ∀ c, m.getLast? = some c → isWs c = false := by
  obtain ⟨o, ws1, d1, ws2, x, ws3, d2, hshape, -, -, -, -, -, -, -, hd2, hd2n⟩ := hm
  subst hshape
  intro c hc
  have he : o ++ ws1 ++ d1 ++ ws2 ++ x :: (ws3 ++ d2) =
      (o ++ ws1 ++ d1 ++ ws2 ++ x :: ws3) ++ d2 := by
    simp [List.append_assoc]
  rw [he, List.getLast?_append_of_ne_nil _ hd2n] at hc
  exact dig_not_ws (hd2 c (mem_of_getLast hc))

theorem sizeCore_struct {l : List Char} {a b : Nat} {m r : List Char}
    (h : sizeCore l = some (a, b, m, r)) : TokShape m ∧ l = m ++ r := by
  simp only [sizeCore] at h
  split at h
  · simp at h
  · rename_i d1 l3 h1
    split at h
    · simp at h
    · rename_i x l5 h2
      split at h
      · rename_i hx
        split at h
        · simp at h
        · rename_i d2 l7 h3
          simp only [Option.some.injEq, Prod.mk.injEq] at h
          obtain ⟨-, -, hm, hr⟩ := h
          subst hm
          subst hr
          have hos := oslashOpt_spec l
          have hsp1 := spanRun_spec (p := isWs) (l := (oslashOpt l).2)
          have hsr1 := spanRun1_some h1
          have hsp2 := spanRun_spec (p := isWs) (l := l3)
          have hsp3 := spanRun_spec (p := isWs) (l := l5)
          have hsr2 := spanRun1_some h3
          constructor
          · exact ⟨(oslashOpt l).1, (spanRun isWs (oslashOpt l).2).1, d1,
              (spanRun isWs l3).1, x, (spanRun isWs l5).1, d2, rfl, hos.2,
              hsp1.2.1, hsr1.2.2.1, hsr1.2.1, hsp2.2.1, hx, hsp3.2.1,
              hsr2.2.2.1, hsr2.2.1⟩
          · have e0 := hos.1
            rw [hsp1.1] at e0
            rw [hsr1.1] at e0
            rw [hsp2.1] at e0
            rw [h2] at e0
            rw [hsp3.1] at e0
            rw [hsr2.1] at e0
            conv_lhs => rw [e0]
            simp [List.append_assoc]
      · simp at h

theorem sizeCore_mk {m g : List Char} (hm : TokShape m)
    (hg : ∀ c, g.head? = some c → isDig c = false) :
    (sizeCore (m ++ g)).isSome = true := by
  obtain ⟨o, ws1, d1, ws2, x, ws3, d2, hshape, ho, hws1, hd1, hd1n, hws2, hx, hws3,
    hd2, hd2n⟩ := hm
  subst hshape
  have hin : (o ++ ws1 ++ d1 ++ ws2 ++ x :: (ws3 ++ d2)) ++ g =
      o ++ (ws1 ++ (d1 ++ (ws2 ++ x :: (ws3 ++ (d2 ++ g))))) := by
    simp [List.append_assoc]
  rw [hin]
  have hd1head : ∀ c, (d1 ++ (ws2 ++ x :: (ws3 ++ (d2 ++ g)))).head? = some c →
      isWs c = false := by
    intro c hc
    cases d1 with
    | nil => exact absurd rfl hd1n
    | cons dc dt =>
      simp only [List.cons_append, List.head?_cons, Option.some.injEq] at hc
      subst hc
      exact dig_not_ws (hd1 dc (by simp))
  have hrest_head : ∀ c, (ws1 ++ (d1 ++ (ws2 ++ x :: (ws3 ++ (d2 ++ g))))).head? = some c →
      isOslash c = false := by
    intro c hc
    cases ws1 with
    | cons w t =>
      simp only [List.cons_append, List.head?_cons, Option.some.injEq] at hc
      subst hc
      exact ws_not_oslash (hws1 w (by simp))
    | nil =>
      rw [List.nil_append] at hc
      cases d1 with
      | nil => exact absurd rfl hd1n
      | cons dc dt =>
        simp only [List.cons_append, List.head?_cons, Option.some.injEq] at hc
        subst hc
        exact dig_not_oslash (hd1 dc (by simp))
  have h1 : oslashOpt (o ++ (ws1 ++ (d1 ++ (ws2 ++ x :: (ws3 ++ (d2 ++ g)))))) =
      (o, ws1 ++ (d1 ++ (ws2 ++ x :: (ws3 ++ (d2 ++ g))))) := by
    rcases ho with ho | ⟨c, hoc, hco⟩
    · subst ho
      rw [List.nil_append]
      exact oslashOpt_none_of hrest_head
    · subst hoc
      rw [List.singleton_append]
      exact oslashOpt_cons_of hco
  have hxhead : ∀ c, (ws2 ++ x :: (ws3 ++ (d2 ++ g))).head? = some c → isDig c = false := by
    intro c hc
    cases ws2 with
    | cons w t =>
      simp only [List.cons_append, List.head?_cons, Option.some.injEq] at hc
      subst hc
      exact ws_not_dig (hws2 w (by simp))
    | nil =>
      rw [List.nil_append] at hc
      simp only [List.head?_cons, Option.some.injEq] at hc
      subst hc
      exact x_not_dig hx
  have h2 : spanRun isWs (ws1 ++ (d1 ++ (ws2 ++ x :: (ws3 ++ (d2 ++ g))))) =
      (ws1, d1 ++ (ws2 ++ x :: (ws3 ++ (d2 ++ g)))) := spanRun_eq hws1 hd1head
  have h3 : spanRun1 isDig (d1 ++ (ws2 ++ x :: (ws3 ++ (d2 ++ g)))) =
      some (d1, ws2 ++ x :: (ws3 ++ (d2 ++ g))) := spanRun1_eq hd1n hd1 hxhead
  have h4 : spanRun isWs (ws2 ++ x :: (ws3 ++ (d2 ++ g))) =
      (ws2, x :: (ws3 ++ (d2 ++ g))) := by
    apply spanRun_eq hws2
    intro c hc
    simp only [List.head?_cons, Option.some.injEq] at hc
    subst hc
    exact x_not_ws hx
  have hd2head : ∀ c, (d2 ++ g).head? = some c → isWs c = false := by
    intro c hc
    cases d2 with
    | nil => exact absurd rfl hd2n
    | cons dc dt =>
      simp only [List.cons_append, List.head?_cons, Option.some.injEq] at hc
      subst hc
      exact dig_not_ws (hd2 dc (by simp))
  have h5 : spanRun isWs (ws3 ++ (d2 ++ g)) = (ws3, d2 ++ g) := spanRun_eq hws3 hd2head
  have h6 : spanRun1 isDig (d2 ++ g) = some (d2, g) := spanRun1_eq hd2n hd2 hg
  simp only [sizeCore, h1, h2, h3, h4, h5, h6, hx]
  simp

theorem gradeOpt_spec (l : List Char) :
    (∀ c, (gradeOpt l).1.head? = some c → isDig c = false) ∧
    (∀ c, (gradeOpt l).1.getLast? = some c → isWs c = false) := by
  cases l with
  | nil => exact ⟨fun c hc => by simp [gradeOpt] at hc, fun c hc => by simp [gradeOpt] at hc⟩
  | cons c0 t =>
    by_cases hc0 : c0 = '-'
    · subst hc0
      rw [gradeOpt, if_pos rfl]
      split
      · rename_i a c1 c2 c3 t3 hdw
        split
        · rename_i hcond
          simp only [Bool.and_eq_true, decide_eq_true_eq] at hcond
          obtain ⟨⟨⟨ha, h1⟩, h2⟩, h3⟩ := hcond
          split
          · rename_i s t4
            split
            · rename_i hs
              constructor
              · intro c hc
                simp only [List.head?_cons, Option.some.injEq] at hc
                subst hc
                decide
              · intro c hc
                have he : ('-' :: (t.takeWhile isWs ++ a :: c1 :: c2 :: c3 :: [s])) =
                    ('-' :: (t.takeWhile isWs ++ [a, c1, c2, c3])) ++ [s] := by
                  simp
                rw [he] at hc
                simp only [List.getLast?_concat, Option.some.injEq] at hc
                subst hc
                exact not_ws_of_lower hs (by decide)
            · constructor
              · intro c hc
                simp only [List.head?_cons, Option.some.injEq] at hc
                subst hc
                decide
              · intro c hc
                have he : ('-' :: (t.takeWhile isWs ++ [a, c1, c2, c3])) =
                    ('-' :: (t.takeWhile isWs ++ [a, c1, c2])) ++ [c3] := by
                  simp
                rw [he] at hc
                simp only [List.getLast?_concat, Option.some.injEq] at hc
                subst hc
                exact dig_not_ws h3
          · constructor
            · intro c hc
              simp only [List.head?_cons, Option.some.injEq] at hc
              subst hc
              decide
            · intro c hc
              have he : ('-' :: (t.takeWhile isWs ++ [a, c1, c2, c3])) =
                  ('-' :: (t.takeWhile isWs ++ [a, c1, c2])) ++ [c3] := by
                simp
              rw [he] at hc
              simp only [List.getLast?_concat, Option.some.injEq] at hc
              subst hc
              exact dig_not_ws h3
        · exact ⟨fun c hc => by simp at hc, fun c hc => by simp at hc⟩
      · exact ⟨fun c hc => by simp at hc, fun c hc => by simp at hc⟩
    · rw [gradeOpt, if_neg hc0]
      exact ⟨fun c hc => by simp at hc, fun c hc => by simp at hc⟩

theorem scanTok_spec : ∀ {l m : List Char} {q : Nat}, scanTok l = some (m, q) → ScanTokSpec m := by
  intro l
  induction l with
  | nil => intro m q h; simp [scanTok] at h
  | cons c t ih =>
    intro m q h
    simp only [scanTok] at h
    have hstep : ∀ m' q', scanTok t = some (m', q') → m = c :: m' → q = q' → ScanTokSpec m := by
      intro m' q' hrec hm hq
      obtain ⟨⟨A, tok, g, hdec, htok, hg⟩, hlast⟩ := ih hrec
      subst hm
      constructor
      · refine ⟨c :: A, tok, g, ?_, htok, hg⟩
        rw [hdec]
        simp
      · intro c' hc'
        have hne : m' ≠ [] := by
          rw [hdec]
          intro hnil
          rcases List.append_eq_nil.mp hnil with ⟨-, h2⟩
          rcases List.append_eq_nil.mp h2 with ⟨h3, -⟩
          exact tokShape_ne_nil htok h3
        have he : c :: m' = [c] ++ m' := rfl
        rw [he, List.getLast?_append_of_ne_nil _ hne] at hc'
        exact hlast c' hc'
    split at h
    · rename_i a b tokM r hsc
      split at h
      · rename_i q' rest' hw
        simp only [Option.some.injEq, Prod.mk.injEq] at h
        obtain ⟨hm, hq⟩ := h
        have htok := (sizeCore_struct hsc).1
        have hgr := gradeOpt_spec r
        subst hm
        constructor
        · exact ⟨[], tokM, (gradeOpt r).1, by simp, htok, hgr.1⟩
        · intro c' hc'
          by_cases hgn : (gradeOpt r).1 = []
          · rw [hgn, List.append_nil] at hc'
            exact tokShape_getLast htok c' hc'
          · rw [List.getLast?_append_of_ne_nil _ hgn] at hc'
            exact hgr.2 c' hc'
      · split at h
        · simp at h
        · rw [Option.map_eq_some'] at h
          obtain ⟨⟨m', q'⟩, hrec, hmq⟩ := h
          simp only [Prod.mk.injEq] at hmq
          exact hstep m' q' hrec hmq.1.symm hmq.2.symm
    · split at h
      · simp at h
      · rw [Option.map_eq_some'] at h
        obtain ⟨⟨m', q'⟩, hrec, hmq⟩ := h
        simp only [Prod.mk.injEq] at hmq
        exact hstep m' q' hrec hmq.1.symm hmq.2.symm

/-! ### Structure of `LINE_RE` matches -/

theorem dropLitCI_head_match {p : Char} {ps l m r : List Char}
    (h : dropLitCI (p :: ps) l = some (m, r)) :
    ∃ c m', m = c :: m' ∧ lowerChar c = lowerChar p := by
  cases l with
  | nil => simp [dropLitCI] at h
  | cons c cs =>
    simp only [dropLitCI] at h
    split at h
    · rename_i hlow
      split at h
      · rename_i m0 r0 hrec
        simp only [Option.some.injEq, Prod.mk.injEq] at h
        exact ⟨c, m0, h.1.symm, hlow⟩
      · simp at h
    · simp at h

theorem fnShape_decomp_ne_nil {m A tok g : List Char}
    (hdec : m = A ++ (tok ++ g)) (htok : TokShape tok) : m ≠ [] := by
  rw [hdec]
  intro hnil
  rcases List.append_eq_nil.mp hnil with ⟨-, h2⟩
  rcases List.append_eq_nil.mp h2 with ⟨h3, -⟩
  exact tokShape_ne_nil htok h3

theorem matchPrutok_spec {l m : List Char} {q : Nat}
    (h : matchPrutok l = some (m, q)) : FnShape m := by
  rw [matchPrutok] at h
  split at h
  · simp at h
  · rename_i kw r hkw
    split at h
    · simp at h
    · rename_i ws r2 hws
      split at h
      · simp at h
      · rename_i m0 q0 hst
        simp only [Option.some.injEq, Prod.mk.injEq] at h
        obtain ⟨hm, hq⟩ := h
        subst hm
        obtain ⟨⟨A, tok, g, hdec, htok, hg⟩, hlast⟩ := scanTok_spec hst
        obtain ⟨ck, kw', hkwc, hklow⟩ := dropLitCI_head_match (p := 'П') hkw
        have hm0 : m0 ≠ [] := fnShape_decomp_ne_nil hdec htok
        refine ⟨⟨kw ++ ws ++ A, tok, g, ?_, htok, hg⟩, ?_, ?_⟩
        · rw [hdec]
          simp [List.append_assoc]
        · intro c hc
          rw [hkwc] at hc
          simp only [List.cons_append, List.head?_cons, Option.some.injEq] at hc
          subst hc
          exact not_ws_of_lower hklow (by decide)
        · intro c hc
          rw [List.getLast?_append_of_ne_nil _ hm0] at hc
          exact hlast c hc

theorem gostOpt_head_match {l g r : List Char} (h : gostOpt l = some (g, r)) :
    ∃ c g', g = c :: g' ∧ isWs c = false := by
  rw [gostOpt] at h
  split at h
  · simp at h
  · rename_i g0 r0 hg0
    split at h
    · simp at h
    · rename_i d1 r2 hd1
      split at h
      · simp at h
      · rename_i y r3
        split at h
        · split at h
          · simp at h
          · rename_i d2 r4 hd2
            simp only [Option.some.injEq, Prod.mk.injEq] at h
            obtain ⟨ck, g0', hg0c, hglow⟩ := dropLitCI_head_match (p := 'Г') hg0
            refine ⟨ck, g0' ++ ((spanRun isWs r0).1 ++ (d1 ++ y ::
              (d2 ++ (spanRun isWs r4).1))), ?_, not_ws_of_lower hglow (by decide)⟩
            rw [← h.1, hg0c]
            simp [List.append_assoc]
        · simp at h

theorem matchLineAt_spec {l m : List Char} {q : Nat}
    (h : matchLineAt l = some (m, q)) : FnShape m := by
  rw [matchLineAt] at h
  split at h
  · rename_i g r hgost
    split at h
    · rename_i m0 q0 hpr
      simp only [Option.some.injEq, Prod.mk.injEq] at h
      obtain ⟨hm, hq⟩ := h
      subst hm
      obtain ⟨⟨A, tok, gr, hdec, htok, hg⟩, hhead, hlast⟩ := matchPrutok_spec hpr
      obtain ⟨ch, g', hgc, hcw⟩ := gostOpt_head_match hgost
      have hm0 : m0 ≠ [] := fnShape_decomp_ne_nil hdec htok
      refine ⟨⟨g ++ A, tok, gr, ?_, htok, hg⟩, ?_, ?_⟩
      · rw [hdec]
        simp [List.append_assoc]
      · intro c hc
        rw [hgc] at hc
        simp only [List.cons_append, List.head?_cons, Option.some.injEq] at hc
        subst hc
        exact hcw
      · intro c hc
        rw [List.getLast?_append_of_ne_nil _ hm0] at hc
        exact hlast c hc
    · exact matchPrutok_spec h
  · exact matchPrutok_spec h

theorem lineSearch_size {line fn : List Char} {q : Nat}
    (h : lineSearch line = some (fn, q)) :
    (sizeSearch (stripChars fn)).isSome = true := by
  obtain ⟨n, hn⟩ := searchWith_drop h
  obtain ⟨⟨A, tok, g, hdec, htok, hg⟩, hhead, hlast⟩ := matchLineAt_spec hn
  rw [stripChars_eq_self hhead hlast, hdec]
  apply searchWith_isSome (n := A.length)
  rw [List.drop_left]
  have hmk := sizeCore_mk htok hg
  cases hs : sizeCore (tok ++ g) with
  | none => rw [hs] at hmk; simp at hmk
  | some v => simp

theorem orO_none {α : Type} (x : Option α) : orO x none = x := by
  cases x <;> rfl

theorem foldl_stepLine_guard : ∀ (lines : List (List Char)) (st : ScanState) (rows : Rows),
    st.current_element = none →
    (∀ l ∈ lines, specElementsSearch l = none ∧ specHeaderSearch l = none) →
    lines.foldl stepLine (st, rows) = (st, rows) := by
  intro lines
  induction lines with
  | nil => intro st rows _ _; rfl
  | cons l t ih =>
    intro st rows hst hl
    have hcl := classify_guard hst (hl l (by simp)).1 (hl l (by simp)).2
    rw [List.foldl_cons]
    have hs : stepLine (st, rows) l = (st, rows) := by simp [stepLine, hcl]
    rw [hs]
    exact ih st rows hst (fun l' hl' => hl l' (by simp [hl']))

theorem classify_no_event (st : ScanState) {line : List Char}
    (h : lineSearch line = none) : (classifyLine st line).2 = none := by
  rw [classifyLine]
  split
  · rfl
  · split
    · rfl
    · split
      · rfl
      · split
        · rfl
        · split
          · rfl
          · split
            · rfl
            · split
              · rfl
              · rename_i fn q heq
                rw [h] at heq
                simp at heq

theorem foldl_stepLine_no_rod : ∀ (lines : List (List Char)) (st : ScanState) (rows : Rows),
    (∀ l ∈ lines, lineSearch l = none) →
    (lines.foldl stepLine (st, rows)).2 = rows := by
  intro lines
  induction lines with
  | nil => intro st rows _; rfl
  | cons l t ih =>
    intro st rows hl
    rw [List.foldl_cons]
    have hev := classify_no_event st (hl l (by simp))
    have hs : stepLine (st, rows) l = ((classifyLine st l).1, rows) := by
      simp only [stepLine]
      cases hc : classifyLine st l with
      | mk st' ev =>
        cases ev with
        | none => rfl
        | some e =>
          rw [hc] at hev
          simp at hev
    rw [hs]
    exact ih (classifyLine st l).1 rows (fun l' hl' => hl l' (by simp [hl']))

/-! ### The claims -/

/-- Claim C1: every output row produced by the result projection satisfies
`totalQuantity = directRodCount*objectMultiplier +
rodsPerEmbedded*embeddedInstanceCount*objectMultiplier`, where the object
multiplier is the object-count map entry for the row's element code,
defaulting to 1 when the code is absent. -/
theorem claim_C1 (pages : List (Option String)) (object_counts : List (String × Nat))
    (row : OutputRow) (h : row ∈ digitize pages object_counts) :
    row.objCount = lookupD object_counts row.element 1 ∧
    row.total = row.direct * lookupD object_counts row.element 1 +
      row.inEmb * row.embCount * lookupD object_counts row.element 1 := by
  rw [digitize] at h
  obtain ⟨p, hp, hrow⟩ := List.mem_map.mp h
  subst hrow
  obtain ⟨⟨e, nm, d, ln⟩, rec⟩ := p
  exact ⟨rfl, rfl⟩

/-- Witness for C1 on a concrete document. -/
theorem claim_C1_witness :
    ((⟨"Км-1", "Пруток 12x500", 12, 500, 5, 0, 3, 0, 15⟩ : OutputRow) ∈
        digitize [none, some "Колонна Км-1\nПруток 12x500 5"] [("Км-1", 3)]) ∧
    (15 : Nat) = 5 * lookupD [("Км-1", 3)] "Км-1" 1 +
      0 * 0 * lookupD [("Км-1", 3)] "Км-1" 1 :=
  ⟨by decide,
    (claim_C1 [none, some "Колонна Км-1\nПруток 12x500 5"] [("Км-1", 3)]
      ⟨"Км-1", "Пруток 12x500", 12, 500, 5, 0, 3, 0, 15⟩ (by decide)).2⟩

/-- Claim C2: the output rows appear in the first-occurrence order of their
aggregation keys during the sequential page/line scan; no other reordering
is applied. -/
theorem claim_C2 (pages : List (Option String)) (object_counts : List (String × Nat)) :
    (digitize pages object_counts).map rowKey =
      firstOccur ((eventsOf pages).map RodEvent.key) := by
  rw [digitize, scanDocument, foldl_stepPage_flatten, List.map_map]
  have h1 : (rowKey ∘ projectRow object_counts) = Prod.fst :=
    funext (rowKey_projectRow object_counts)
  rw [h1]
  have h2 := foldl_stepLine_snd (((pages.drop 1).map pageLines).flatten) initState []
  rw [h2, keys_foldl_applyEvent]
  rfl

/-- Claim C3: the object-count extractor reads only page 0; absent or empty
page-0 text yields the empty map without raising, and otherwise the map
sends each code found by the recognizer to its paired integer, the last
occurrence of a duplicate code winning. -/
theorem claim_C3 :
    extract_object_counts none = [] ∧ extract_object_counts (some "") = [] ∧
    ∀ (text : String) (k : String),
      lookupVal (extract_object_counts (some text)) k =
        lastOcc (objectFindAll text.toList) k := by
  refine ⟨rfl, rfl, fun text k => ?_⟩
  have h := lookupVal_foldl_insert (objectFindAll text.toList) [] k
  calc lookupVal (extract_object_counts (some text)) k
      = orO (lastOcc (objectFindAll text.toList) k) (lookupVal [] k) := h
    _ = lastOcc (objectFindAll text.toList) k := orO_none _

/-- Claim C4: a line matching the section marker, or the element header,
sets the current element to the captured code, clears the embedded-context
flag and zeroes the embedded instance count; consequently an event emitted
while the flag is false (as after any new header) is a direct event. -/
theorem claim_C4 (st : ScanState) (line : List Char) :
    (∀ code, specElementsSearch line = some code →
      classifyLine st line = (⟨some code, 0, false⟩, none)) ∧
    (∀ code, specElementsSearch line = none → specHeaderSearch line = some code →
      classifyLine st line = (⟨some code, 0, false⟩, none)) ∧
    (∀ st' ev, st.in_embedded = false → classifyLine st line = (st', some ev) →
      ev.embedded = false) := by
  refine ⟨fun code h => classify_specElements h,
    fun code h1 h2 => classify_specHeader h1 h2,
    fun st' ev hemb hcl => ?_⟩
  obtain ⟨-, he, -⟩ := classify_emitted hcl
  rw [he, hemb]

/-- Witness for C4: a section-marker line and an element-header line each
reset the state, and a rod line seen with the flag false yields a direct
event. -/
theorem claim_C4_witness :
    classifyLine ⟨some "Бм-2", 9, true⟩ "Спецификация элементов Км-3".toList =
      (⟨some "Км-3", 0, false⟩, none) ∧
    classifyLine ⟨some "Бм-2", 9, true⟩ "Колонна Км-4".toList =
      (⟨some "Км-4", 0, false⟩, none) ∧
    RodEvent.embedded ⟨("Км-1", "Пруток 12x500", 12, 500), 5, false, 0⟩ = false :=
  ⟨(claim_C4 ⟨some "Бм-2", 9, true⟩ "Спецификация элементов Км-3".toList).1 "Км-3"
      (by decide),
   (claim_C4 ⟨some "Бм-2", 9, true⟩ "Колонна Км-4".toList).2.1 "Км-4"
      (by decide) (by decide),
   (claim_C4 ⟨some "Км-1", 0, false⟩ "Пруток 12x500 5".toList).2.2
      ⟨some "Км-1", 0, false⟩ ⟨("Км-1", "Пруток 12x500", 12, 500), 5, false, 0⟩
      rfl (by decide)⟩

/-- Claim C5: an embedded-quantity line overwrites the embedded instance
count with the captured quantity and leaves the embedded-context flag
unchanged; the quantity recognizer is tried before the embedded-header
recognizer, and indeed every line it matches also matches the header
recognizer yet is treated as a quantity line. -/
theorem claim_C5 :
    (∀ (st : ScanState) (line : List Char) (elem : String) (q : Nat),
      st.current_element = some elem →
      specElementsSearch line = none → specHeaderSearch line = none →
      embeddedLineSearch line = some q →
      classifyLine st line = ({ st with embedded_qty := q }, none)) ∧
    (∀ (line : List Char) (q : Nat), embeddedLineSearch line = some q →
      embeddedHeaderSearch line = true) := by
  constructor
  · intro st line elem q he h1 h2 h3
    exact classify_embeddedLine he h1 h2 h3
  · intro line q h
    obtain ⟨n, hn⟩ := searchWith_drop h
    rw [embeddedLineAt] at hn
    cases hc : embeddedHeaderCore (line.drop n) with
    | none => rw [hc] at hn; simp at hn
    | some r =>
      rw [embeddedHeaderSearch]
      exact searchWith_isSome n (by rw [hc]; rfl)

/-- Witness for C5: a line matching both embedded recognizers updates only
the embedded quantity (the flag stays `true` as it was) and does match the
header recognizer. -/
theorem claim_C5_witness :
    classifyLine ⟨some "Км-1", 7, true⟩ "Изделие закладное ЗД-2 4".toList =
      (⟨some "Км-1", 4, true⟩, none) ∧
    embeddedHeaderSearch "Изделие закладное ЗД-2 4".toList = true :=
  ⟨claim_C5.1 ⟨some "Км-1", 7, true⟩ "Изделие закладное ЗД-2 4".toList "Км-1" 4
      rfl (by decide) (by decide) (by decide),
   claim_C5.2 "Изделие закладное ЗД-2 4".toList 4 (by decide)⟩

/-- Claim C6: an embedded-context event overwrites the record's embedded
instance count with the event's value (while summing the quantity); two
embedded events on the same key leave only the second count; and the value
an event carries is exactly the classifier's current embedded count. -/
theorem claim_C6 :
    (∀ (rows : Rows) (k : Key) (q eq : Nat),
      findRow (applyEvent rows ⟨k, q, true, eq⟩) k =
        some ⟨((findRow rows k).getD emptyRecord).direct,
          ((findRow rows k).getD emptyRecord).inEmb + q, eq⟩) ∧
    (∀ (rows : Rows) (k : Key) (q1 eq1 q2 eq2 : Nat),
      (findRow (applyEvent (applyEvent rows ⟨k, q1, true, eq1⟩) ⟨k, q2, true, eq2⟩) k).map
        RowRecord.embCnt = some eq2) ∧
    (∀ (st : ScanState) (elem : String) (fn : List Char) (q : Nat) (ev : RodEvent),
      rodAction st elem fn q = some ev →
      ev.embQty = st.embedded_qty ∧ ev.embedded = st.in_embedded) := by
  have h1 : ∀ (rows : Rows) (k : Key) (q eq : Nat),
      findRow (applyEvent rows ⟨k, q, true, eq⟩) k =
        some ⟨((findRow rows k).getD emptyRecord).direct,
          ((findRow rows k).getD emptyRecord).inEmb + q, eq⟩ := by
    intro rows k q eq
    have happ : applyEvent rows ⟨k, q, true, eq⟩ =
        updateRow rows k (fun r => { r with inEmb := r.inEmb + q, embCnt := eq }) := rfl
    rw [happ, findRow_updateRow]
  refine ⟨h1, fun rows k q1 eq1 q2 eq2 => ?_, fun st elem fn q ev h => ?_⟩
  · rw [h1]
    rfl
  · obtain ⟨e1, e2, -, -⟩ := rodAction_some h
    exact ⟨e2, e1⟩

/-- Witness for C6: a concrete rod action emits an event carrying the
classifier's embedded count and flag. -/
theorem claim_C6_witness :
    RodEvent.embQty ⟨("Км-1", "Пруток 12x500", 12, 500), 2, true, 4⟩ =
      ScanState.embedded_qty ⟨some "Км-1", 4, true⟩ ∧
    RodEvent.embedded ⟨("Км-1", "Пруток 12x500", 12, 500), 2, true, 4⟩ =
      ScanState.in_embedded ⟨some "Км-1", 4, true⟩ :=
  claim_C6.2.2 ⟨some "Км-1", 4, true⟩ "Км-1" "Пруток 12x500".toList 2
    ⟨("Км-1", "Пруток 12x500", 12, 500), 2, true, 4⟩ (by decide)

/-- Claim C7: the core never fails on document content — a page with no
text is skipped, a line matching no recognizer leaves the scan unchanged, a
rod line whose name yields no diameter/length emits no event, a document
with no recognizable element headers yields the empty output, and so does a
document with no recognizable rod lines (headers or not). -/
theorem claim_C7 :
    (∀ acc : ScanState × Rows, stepPage acc none = acc ∧ stepPage acc (some "") = acc) ∧
    (∀ (st : ScanState) (rows : Rows) (line : List Char),
      specElementsSearch line = none → specHeaderSearch line = none →
      embeddedLineSearch line = none → embeddedHeaderSearch line = false →
      lineSearch line = none → stepLine (st, rows) line = (st, rows)) ∧
    (∀ (st : ScanState) (elem : String) (fn : List Char) (q : Nat),
      sizeSearch (stripChars fn) = none → rodAction st elem fn q = none) ∧
    (∀ (pages : List (Option String)) (object_counts : List (String × Nat)),
      (∀ l ∈ docLines pages, specElementsSearch l = none ∧ specHeaderSearch l = none) →
      digitize pages object_counts = []) ∧
    (∀ (pages : List (Option String)) (object_counts : List (String × Nat)),
      (∀ l ∈ docLines pages, lineSearch l = none) →
      digitize pages object_counts = []) := by
  refine ⟨fun acc => ⟨rfl, rfl⟩, ?_, ?_, ?_, ?_⟩
  · intro st rows line h1 h2 h3 h4 h5
    have hcl := classify_noMatch st h1 h2 h3 h4 h5
    simp [stepLine, hcl]
  · intro st elem fn q hs
    simp [rodAction, hs]
  · intro pages counts hl
    rw [digitize, scanDocument, foldl_stepPage_flatten]
    rw [foldl_stepLine_guard (((pages.drop 1).map pageLines).flatten) initState [] rfl hl]
    rfl
  · intro pages counts hl
    rw [digitize, scanDocument, foldl_stepPage_flatten]
    rw [foldl_stepLine_no_rod (((pages.drop 1).map pageLines).flatten) initState [] hl]
    rfl

/-- Witness for C7 on concrete inputs: an inert accumulator, an
unrecognized line, an unparsable rod name, a header-free document, and a
document with a header but no rod lines. -/
theorem claim_C7_witness :
    (stepPage (⟨some "Км-1", 2, true⟩, []) none = (⟨some "Км-1", 2, true⟩, []) ∧
      stepPage (⟨some "Км-1", 2, true⟩, []) (some "") = (⟨some "Км-1", 2, true⟩, [])) ∧
    stepLine (⟨some "Км-1", 0, false⟩, []) "просто строка".toList =
      (⟨some "Км-1", 0, false⟩, []) ∧
    rodAction ⟨some "Км-1", 0, false⟩ "Км-1" "abc".toList 5 = none ∧
    digitize [none, some "какой-то текст"] [] = [] ∧
    digitize [none, some "Колонна Км-1\nИзделие закладное ЗД-1 2\nпояснение"] [] = [] :=
  ⟨claim_C7.1 (⟨some "Км-1", 2, true⟩, []),
   claim_C7.2.1 ⟨some "Км-1", 0, false⟩ [] "просто строка".toList
     (by decide) (by decide) (by decide) (by decide) (by decide),
   claim_C7.2.2.1 ⟨some "Км-1", 0, false⟩ "Км-1" "abc".toList 5 (by decide),
   claim_C7.2.2.2.1 [none, some "какой-то текст"] [] (by decide),
   claim_C7.2.2.2.2 [none, some "Колонна Км-1\nИзделие закладное ЗД-1 2\nпояснение"] []
     (by decide)⟩

/-- Claim C8: the classifier state persists across page boundaries (the
scan over a document split at any page boundary resumes from the carried
state), empty or skipped pages change nothing, and a line matching neither
header recognizer can only leave the state unchanged, overwrite the
embedded quantity, or set the embedded flag — never reset the element. -/
theorem claim_C8 :
    (∀ (acc : ScanState × Rows) (ps1 ps2 : List (Option String)),
      (ps1 ++ ps2).foldl stepPage acc = ps2.foldl stepPage (ps1.foldl stepPage acc)) ∧
    (∀ acc : ScanState × Rows, stepPage acc none = acc ∧ stepPage acc (some "") = acc) ∧
    (∀ (st : ScanState) (rows : Rows) (line : List Char),
      specElementsSearch line = none → specHeaderSearch line = none →
      ((stepLine (st, rows) line).1 = st ∨
        (∃ q, (stepLine (st, rows) line).1 = { st with embedded_qty := q }) ∨
        (stepLine (st, rows) line).1 = { st with in_embedded := true })) := by
  refine ⟨fun acc ps1 ps2 => List.foldl_append .., fun acc => ⟨rfl, rfl⟩, ?_⟩
  intro st rows line h1 h2
  have hst : (stepLine (st, rows) line).1 = (classifyLine st line).1 := by
    simp only [stepLine]
    cases hc : classifyLine st line with
    | mk st' ev => cases ev <;> rfl
  rw [hst]
  by_cases hstrip : stripChars line = []
  · left
    rw [classifyLine, if_pos hstrip]
  · rw [classifyLine, if_neg hstrip, h1, h2]
    split
    · rename_i code heq
      simp at heq
    · split
      · rename_i code heq
        simp at heq
      · split
        · left
          rfl
        · split
          · rename_i q' heq'
            right; left
            exact ⟨q', rfl⟩
          · split
            · right; right
              rfl
            · split
              · left
                rfl
              · left
                rfl

/-- Witness for C8: splitting a concrete document at a page boundary, an
empty page, and an embedded-header line that only sets the flag. -/
theorem claim_C8_witness :
    (([some "a", none] ++ [some "b"]).foldl stepPage (⟨some "Км-1", 5, false⟩, []) =
      [some "b"].foldl stepPage
        ([some "a", none].foldl stepPage (⟨some "Км-1", 5, false⟩, []))) ∧
    ((stepLine (⟨some "Км-1", 5, false⟩, []) "Изделие закладное ЗД-9".toList).1 =
        (⟨some "Км-1", 5, false⟩ : ScanState) ∨
      (∃ q, (stepLine (⟨some "Км-1", 5, false⟩, []) "Изделие закладное ЗД-9".toList).1 =
        { (⟨some "Км-1", 5, false⟩ : ScanState) with embedded_qty := q }) ∨
      (stepLine (⟨some "Км-1", 5, false⟩, []) "Изделие закладное ЗД-9".toList).1 =
        { (⟨some "Км-1", 5, false⟩ : ScanState) with in_embedded := true }) :=
  ⟨claim_C8.1 (⟨some "Км-1", 5, false⟩, []) [some "a", none] [some "b"],
   claim_C8.2.2 ⟨some "Км-1", 5, false⟩ [] "Изделие закладное ЗД-9".toList
     (by decide) (by decide)⟩

/-- Claim C9: before any header has been seen (current element unset), a
line matching neither header recognizer is ignored entirely: no state
change and no event, whatever its shape. -/
theorem claim_C9 (st : ScanState) (rows : Rows) (line : List Char)
    (he : st.current_element = none)
    (h1 : specElementsSearch line = none) (h2 : specHeaderSearch line = none) :
    classifyLine st line = (st, none) ∧ stepLine (st, rows) line = (st, rows) := by
  have hcl := classify_guard he h1 h2
  exact ⟨hcl, by simp [stepLine, hcl]⟩

/-- Witness for C9: an embedded-quantity line before the first header
changes nothing. -/
theorem claim_C9_witness :
    classifyLine ⟨none, 3, true⟩ "Изделие закладное ЗД-1 4".toList =
      (⟨none, 3, true⟩, none) ∧
    stepLine ((⟨none, 3, true⟩ : ScanState), ([] : Rows))
        "Изделие закладное ЗД-1 4".toList = (⟨none, 3, true⟩, []) :=
  claim_C9 ⟨none, 3, true⟩ [] "Изделие закладное ЗД-1 4".toList rfl
    (by decide) (by decide)

/-- Claim C10: the rod-line pattern itself guarantees a
diameter-by-length token inside the captured name, so the size sub-pattern
always succeeds on the stripped name and every rod-line match yields an
event — the drop-on-unparsable-name branch is unreachable for captured
names. -/
theorem claim_C10 :
    (∀ (line fn : List Char) (q : Nat), lineSearch line = some (fn, q) →
      (sizeSearch (stripChars fn)).isSome = true) ∧
    (∀ (st : ScanState) (elem : String) (line fn : List Char) (q : Nat),
      lineSearch line = some (fn, q) → (rodAction st elem fn q).isSome = true) := by
  constructor
  · exact fun line fn q h => lineSearch_size h
  · intro st elem line fn q h
    have hs := lineSearch_size h
    rw [Option.isSome_iff_exists] at hs
    obtain ⟨⟨d, len⟩, hdl⟩ := hs
    simp [rodAction, hdl]

/-- Witness for C10 at a concrete rod line. -/
theorem claim_C10_witness :
    (sizeSearch (stripChars "Пруток 12x500".toList)).isSome = true ∧
    (rodAction ⟨some "Км-1", 0, false⟩ "Км-1" "Пруток 12x500".toList 5).isSome = true :=
  ⟨claim_C10.1 "Пруток 12x500 5".toList "Пруток 12x500".toList 5 (by decide),
   claim_C10.2 ⟨some "Км-1", 0, false⟩ "Км-1" "Пруток 12x500 5".toList
     "Пруток 12x500".toList 5 (by decide)⟩

end KjDigitizer
